import Mathlib

/-!
# Rendezvous hashing (`rendezvous.Hasher`): a shallow embedding of `hasher.go`

Modelling conventions.

* A Go `string` is an immutable byte sequence, so member identifiers and keys are
  `List UInt8`; the conversion `[]byte(s)` is the identity.
* `map[string]struct{}` is a finite set of keys (`Finset GoString`).  A `range` over the map
  yields every key once, in an order the language leaves unspecified: each function that ranges
  over the map takes that order as the explicit argument `enum`, and the theorems quantify over
  every `enum` with `Enumerates enum h.members`.
* `hash.Hash` is used only through `Reset(); Write(a); Write(b); Sum(nil)`; a digest is the
  function from the bytes written since the last `Reset` to the bytes `Sum(nil)` returns.
* `sort.Slice` and `sort.Strings` belong to the Go standard library.  The functions that sort take
  the sorting routine as the argument `srt`; the theorems assume only its documented contract
  (`SortContract`).  `insertionSort` is the routine the library runs on slices of at most twelve
  elements, and it meets the contract (`insertionSort_contract`).
* A run-time panic (index or slice bound out of range) is the result `none`.
* The mutex is not modelled: every function is one critical section.
-/

namespace Rendezvous

/-! ## Data model -/

/-- A Go string: a sequence of bytes. -/
abbrev GoString := List UInt8

/-- A string literal as a Go string: its UTF-8 bytes. -/
def str (s : String) : GoString := s.toUTF8.data.toList

/-- The type `SortOrder`, a `bool` in the source. -/
abbrev SortOrder := Bool

/-- The constant `LowestFirst SortOrder = true`. -/
def LowestFirst : SortOrder := true

/-- The constant `HighestFirst SortOrder = false`. -/
def HighestFirst : SortOrder := false

/-- The digest capability: bytes written since `Reset` to the bytes returned by `Sum(nil)`. -/
abbrev Digest := List UInt8 → List UInt8

/-- The struct `Hasher`, without the mutex. -/
structure Hasher where
  hash : Digest
  order : SortOrder
  members : Finset GoString

/-- The order in which one `range h.members` yields the keys: each key exactly once. -/
def Enumerates (enum : List GoString) (members : Finset GoString) : Prop :=
  enum.Nodup ∧ enum.toFinset = members

instance (enum : List GoString) (members : Finset GoString) :
    Decidable (Enumerates enum members) :=
  inferInstanceAs (Decidable (enum.Nodup ∧ enum.toFinset = members))

/-! ## Standard-library routines used by the source -/

/-- The library function `bytes.Compare(a, b)`: lexicographic comparison of byte slices, with
result `-1`, `0` or `+1`. -/
def bytesCompare : List UInt8 → List UInt8 → Int
  | [], [] => 0
  | [], _ :: _ => -1
  | _ :: _, [] => 1
  | a :: as, b :: bs =>
    if a < b then -1 else if b < a then 1 else bytesCompare as bs

/-- Go's `a < b` on strings: byte-wise lexicographic order. -/
def stringLess (a b : GoString) : Bool := decide (bytesCompare a b < 0)

/-- A sorting routine of Go's `sort` package, driven by a `less` function. -/
abbrev Sorter := (GoString → GoString → Bool) → List GoString → List GoString

/-- The requirement the `sort` package puts on `less`: a transitive ordering whose
incomparability is transitive too. -/
structure StrictWeakOrder (less : GoString → GoString → Bool) : Prop where
  irrefl : ∀ a, less a a = false
  trans : ∀ a b c, less a b = true → less b c = true → less a c = true
  incompTrans : ∀ a b c, less a b = false → less b c = false → less a c = false

/-- The documented contract of `sort.Slice` / `sort.Strings`: the slice is rearranged
(a permutation), and afterwards no later element is `less` than an earlier one. -/
structure SortContract (srt : Sorter) : Prop where
  perm : ∀ less xs, (srt less xs).Perm xs
  sorted : ∀ less xs, StrictWeakOrder less →
    (srt less xs).Pairwise (fun a b => less b a = false)

/-- Inner loop of `insertionSort_func`:
`for j := i; j > a && less(j, j-1); j-- { swap(j, j-1) }`.
The prefix left of the element `x` is given nearest neighbour first. -/
def insertLeft {α : Type} (less : α → α → Bool) (x : α) : List α → List α
  | [] => [x]
  | y :: ys => if less x y then y :: insertLeft less x ys else x :: y :: ys

/-- The sort package's `insertionSort_func`, the routine `sort.Slice` runs when the slice has at
most twelve elements: `for i := a + 1; i < b; i++ { inner loop }`. -/
def insertionSort {α : Type} (less : α → α → Bool) (xs : List α) : List α :=
  (xs.foldl (fun sortedRev x => insertLeft less x sortedRev) []).reverse

/-- The routine `insertionSort` as a sorting routine on slices of strings. -/
def insertionSorter : Sorter := fun less xs => insertionSort less xs

/-! ### `crypto/sha256`

The default digest is `sha256.New()` from the Go standard library; it computes SHA-256 as
specified in FIPS 180-4.  Words are natural numbers below `2^32`. -/

namespace Sha256

/-- Addition modulo `2^32`. -/
def add32 (a b : Nat) : Nat := (a + b) % 4294967296

/-- Rotate a 32-bit word right by `n` bits. -/
def rotr (x n : Nat) : Nat := ((x >>> n) ||| (x <<< (32 - n))) % 4294967296

/-- Integer root by bisection over the bits below `2^b`: starting from `r`, the largest sum
`r + (bits)` whose `k`-th power does not exceed `n`. -/
def iroot (k n : Nat) : Nat → Nat → Nat
  | 0, r => r
  | b + 1, r => if (r + 2 ^ b) ^ k ≤ n then iroot k n b (r + 2 ^ b) else iroot k n b r

/-- The first 32 bits of the fractional part of the `k`-th root of `p`, for small `p`. -/
def fracRoot (k p : Nat) : Nat := iroot k (p * 2 ^ (32 * k)) 36 0 % 4294967296

/-- The first 64 prime numbers. -/
def primes : List Nat :=
  (List.range 312).filter
    (fun n => decide (2 ≤ n) && (List.range n).all (fun d => decide (d < 2) || n % d != 0))

/-- The round constants (the library's table `_K`): the first 32 bits of the fractional parts of
the cube roots of the first 64 primes, FIPS 180-4 section 4.2.2. -/
def K : List Nat := primes.map (fracRoot 3)

/-- Padding: the byte `0x80`, zero bytes up to 56 modulo 64, then the bit length as eight
big-endian bytes. -/
def pad (msg : List Nat) : List Nat :=
  let bits := 8 * msg.length
  msg ++ [128] ++ List.replicate ((119 - msg.length % 64) % 64) 0 ++
    (List.range 8).map (fun i => (bits >>> (8 * (7 - i))) % 256)

/-- A big-endian word from its bytes. -/
def word (bs : List Nat) : Nat := bs.foldl (fun acc b => acc * 256 + b) 0

/-- The first `n` big-endian 32-bit words of a byte sequence. -/
def wordsOf : Nat → List Nat → List Nat
  | 0, _ => []
  | n + 1, bs => word (bs.take 4) :: wordsOf n (bs.drop 4)

/-- The function `σ0`. -/
def ssig0 (x : Nat) : Nat := rotr x 7 ^^^ rotr x 18 ^^^ (x >>> 3)

/-- The function `σ1`. -/
def ssig1 (x : Nat) : Nat := rotr x 17 ^^^ rotr x 19 ^^^ (x >>> 10)

/-- The function `Σ0`. -/
def bsig0 (x : Nat) : Nat := rotr x 2 ^^^ rotr x 13 ^^^ rotr x 22

/-- The function `Σ1`. -/
def bsig1 (x : Nat) : Nat := rotr x 6 ^^^ rotr x 11 ^^^ rotr x 25

/-- The function `Ch`. -/
def ch (x y z : Nat) : Nat := (x &&& y) ^^^ ((x ^^^ 4294967295) &&& z)

/-- The function `Maj`. -/
def maj (x y z : Nat) : Nat := (x &&& y) ^^^ (x &&& z) ^^^ (y &&& z)

/-- Extend the message schedule by `n` words; the schedule is kept newest word first, so
`W[t-2]`, `W[t-7]`, `W[t-15]`, `W[t-16]` are at positions 1, 6, 14, 15. -/
def schedule : Nat → List Nat → List Nat
  | 0, w => w
  | n + 1, w =>
    schedule n (add32 (add32 (ssig1 (w.getD 1 0)) (w.getD 6 0))
      (add32 (ssig0 (w.getD 14 0)) (w.getD 15 0)) :: w)

/-- The eight working variables, also the chaining value. -/
structure State where
  a : Nat
  b : Nat
  c : Nat
  d : Nat
  e : Nat
  f : Nat
  g : Nat
  h : Nat

/-- The initial hash value: the first 32 bits of the fractional parts of the square roots of the
first 8 primes, FIPS 180-4 section 5.3.3. -/
def init : State :=
  ⟨fracRoot 2 2, fracRoot 2 3, fracRoot 2 5, fracRoot 2 7,
   fracRoot 2 11, fracRoot 2 13, fracRoot 2 17, fracRoot 2 19⟩

/-- One round, with the constant `kw.1` and the schedule word `kw.2`. -/
def round (s : State) (kw : Nat × Nat) : State :=
  let t1 := add32 (add32 (add32 s.h (bsig1 s.e)) (add32 (ch s.e s.f s.g) kw.1)) kw.2
  let t2 := add32 (bsig0 s.a) (maj s.a s.b s.c)
  ⟨add32 t1 t2, s.a, s.b, s.c, add32 s.d t1, s.e, s.f, s.g⟩

/-- The compression function on one 64-byte block. -/
def block (hs : State) (bs : List Nat) : State :=
  let w := (schedule 48 (wordsOf 16 bs).reverse).reverse
  let s := (K.zip w).foldl round hs
  ⟨add32 hs.a s.a, add32 hs.b s.b, add32 hs.c s.c, add32 hs.d s.d,
   add32 hs.e s.e, add32 hs.f s.f, add32 hs.g s.g, add32 hs.h s.h⟩

/-- Compress `n` consecutive blocks. -/
def blocks : Nat → State → List Nat → State
  | 0, s, _ => s
  | n + 1, s, bs => blocks n (block s (bs.take 64)) (bs.drop 64)

/-- The four big-endian bytes of a word. -/
def be32 (x : Nat) : List Nat := [x >>> 24, (x >>> 16) % 256, (x >>> 8) % 256, x % 256]

/-- SHA-256 of a byte sequence, bytes as natural numbers. -/
def sum (msg : List Nat) : List Nat :=
  let p := pad msg
  let s := blocks (p.length / 64) init p
  be32 s.a ++ be32 s.b ++ be32 s.c ++ be32 s.d ++ be32 s.e ++ be32 s.f ++ be32 s.g ++ be32 s.h

end Sha256

/-- The digest of `sha256.New()`: the bytes written are hashed with SHA-256. -/
def sha256 : Digest := fun msg => (Sha256.sum (msg.map UInt8.toNat)).map UInt8.ofNat

/-! ## `hasher.go` -/

/-- The method `AddMembers`: `h.members[member] = struct{}{}` for each member in turn. -/
def AddMembers (h : Hasher) (members : List GoString) : Hasher :=
  { h with members := members.foldl (fun m member => insert member m) h.members }

/-- The method `RemoveMembers`: `delete(h.members, member)` for each member in turn. -/
def RemoveMembers (h : Hasher) (members : List GoString) : Hasher :=
  { h with members := members.foldl (fun m member => m.erase member) h.members }

/-- The method `SetMembers`: a fresh map, then every member inserted. -/
def SetMembers (h : Hasher) (members : List GoString) : Hasher :=
  { h with members := members.foldl (fun m member => insert member m) ∅ }

/-- The method `Members`: the keys in range order, then `sort.Strings`. -/
def Members (srt : Sorter) (_h : Hasher) (enum : List GoString) : List GoString :=
  srt stringLess enum

/-- The score of a member for a key, as computed inside the `less` closure:
`Reset(); Write([]byte(member)); Write([]byte(key)); Sum(nil)`. -/
def score (h : Hasher) (key member : GoString) : List UInt8 :=
  h.hash (member ++ key)

/-- The closure passed to `sort.Slice`: `bytes.Compare(iHash, jHash) < 0`. -/
def less (h : Hasher) (key : GoString) (mi mj : GoString) : Bool :=
  decide (bytesCompare (score h key mi) (score h key mj) < 0)

/-- The assignment `members[i], members[opp] = members[opp], members[i]`. -/
def swap {α : Type} (members : List α) (i opp : Nat) : List α :=
  match members[i]?, members[opp]? with
  | some a, some b => (members.set i b).set opp a
  | _, _ => members

/-- The loop `for i := len(members)/2 - 1; i >= 0; i-- { opp := len(members) - 1 - i; swap }`;
`reverseLoop n members` runs the iterations `i = n - 1, n - 2, ..., 0`. -/
def reverseLoop {α : Type} : Nat → List α → List α
  | 0, members => members
  | i + 1, members => reverseLoop i (swap members i (members.length - 1 - i))

/-- The method `Hasher.priorityList`. -/
def priorityList (srt : Sorter) (h : Hasher) (enum : List GoString) (key : GoString) :
    List GoString :=
  if h.members.card = 0 then []
  else
    match (if h.members.card = 1 then enum.head? else none) with
    | some member => [member]
    | none =>
      let members := srt (less h key) enum
      if h.order = HighestFirst then reverseLoop (members.length / 2) members else members

/-- The slice expression `s[:n]` on a slice whose capacity equals its length. -/
def sliceTo (s : List GoString) (n : Int) : Option (List GoString) :=
  if 0 ≤ n ∧ n ≤ s.length then some (s.take n.toNat) else none

/-- The method `Hasher.place`. -/
def place (srt : Sorter) (h : Hasher) (enum : List GoString) (key : GoString) (n : Int) :
    Option (List GoString) :=
  if h.members.card = 0 ∨ n ≤ 0 then some []
  else
    let n := if n > h.members.card then (h.members.card : Int) else n
    sliceTo (priorityList srt h enum key) n

/-- The method `Hasher.Prioritise`. -/
def Prioritise (srt : Sorter) (h : Hasher) (enum : List GoString) (key : GoString) :
    List GoString :=
  priorityList srt h enum key

/-- The method `Hasher.Place`. -/
def Place (srt : Sorter) (h : Hasher) (enum : List GoString) (key : GoString) (n : Int) :
    Option (List GoString) :=
  place srt h enum key n

/-- The method `Hasher.Owner`: `h.priorityList(key)[0]`; indexing an empty slice panics. -/
def Owner (srt : Sorter) (h : Hasher) (enum : List GoString) (key : GoString) :
    Option GoString :=
  (priorityList srt h enum key)[0]?

/-- The type `HasherOption`, a `func(*Hasher)`. -/
abbrev HasherOption := Hasher → Hasher

/-- The option `WithHashImplementation`. -/
def WithHashImplementation (d : Digest) : HasherOption := fun hs => { hs with hash := d }

/-- The option `WithSortOrder`. -/
def WithSortOrder (order : SortOrder) : HasherOption := fun hs => { hs with order := order }

/-- The option `WithMembers`. -/
def WithMembers (members : List GoString) : HasherOption := fun hs =>
  { hs with members := members.foldl (fun m member => insert member m) hs.members }

/-- The constructor `NewHasher`: SHA-256, `HighestFirst` and an empty map, then the options in
the order given. -/
def NewHasher (opts : List HasherOption) : Hasher :=
  opts.foldl (fun rtn opt => opt rtn) { hash := sha256, order := HighestFirst, members := ∅ }

/-- A call of one of the three mutating methods. -/
inductive Call where
  | addMembers (members : List GoString)
  | removeMembers (members : List GoString)
  | setMembers (members : List GoString)

/-- Perform one mutating call. -/
def Call.run (h : Hasher) : Call → Hasher
  | .addMembers ms => AddMembers h ms
  | .removeMembers ms => RemoveMembers h ms
  | .setMembers ms => SetMembers h ms

/-- The state after a sequence of mutating calls, performed left to right. -/
def runCalls (h : Hasher) (calls : List Call) : Hasher :=
  calls.foldl Call.run h

/-! ## Notions used in the statements -/

/-- Scores for `key` are pairwise distinct on the member set. -/
def DistinctScores (h : Hasher) (key : GoString) (members : Finset GoString) : Prop :=
  ∀ a ∈ members, ∀ b ∈ members, h.hash (a ++ key) = h.hash (b ++ key) → a = b

/-- A byte string read as an unsigned big-endian integer: the first byte is the most
significant. -/
def bigEndianValue : List UInt8 → Nat
  | [] => 0
  | b :: bs => b.toNat * 256 ^ bs.length + bigEndianValue bs

/-! ## Concrete inputs -/

/-- A hasher over `node1` and `node2` whose digest returns the bytes written to it, so that
different members have different scores. -/
def twoNodes (order : SortOrder) : Hasher :=
  NewHasher [WithHashImplementation (fun written => written), WithSortOrder order,
    WithMembers [str "node1", str "node2"]]

/-- A hasher over `node1` and `node2` whose digest returns the same bytes whatever was written,
so that all scores are equal. -/
def tiedNodes (order : SortOrder) : Hasher :=
  NewHasher [WithHashImplementation (fun _ => [0]), WithSortOrder order,
    WithMembers [str "node1", str "node2"]]

/-- The hasher of the example tests: `NewHasher(WithMembers("node1", ..., "node5"))`, so the
digest is SHA-256 and the order is `HighestFirst`. -/
def exampleHasher : Hasher :=
  NewHasher [WithMembers [str "node1", str "node2", str "node3", str "node4", str "node5"]]

/-- The calls of `TestHasher_Members`, in order. -/
def exampleCalls : List Call :=
  [.addMembers [str "node1", str "node2"], .removeMembers [str "node1"],
   .removeMembers [str "node2"], .setMembers [str "node1", str "node2"]]

/-- A hasher over `node1` and `node2` whose digest returns outputs of different lengths: the
single byte `01` for the bytes of `node1item`, the two bytes `00 02` for anything else. -/
def unevenNodes (order : SortOrder) : Hasher :=
  NewHasher [WithHashImplementation
      (fun written => if written = str "node1" ++ str "item" then [1] else [0, 2]),
    WithSortOrder order, WithMembers [str "node1", str "node2"]]

/-- A hasher over `node1`, `node2` and `node3` whose digest returns the bytes written to it. -/
def threeNodes (order : SortOrder) : Hasher :=
  NewHasher [WithHashImplementation (fun written => written), WithSortOrder order,
    WithMembers [str "node1", str "node2", str "node3"]]

/-! ## Theorems -/

/-! ### `bytes.Compare` -/

theorem u8_lt_iff (a b : UInt8) : a < b ↔ a.toNat < b.toNat := Iff.rfl

theorem bytesCompare_self (a : List UInt8) : bytesCompare a a = 0 := by
  induction a with
  | nil => rfl
  | cons x xs ih => simp [bytesCompare, ih]

theorem bytesCompare_swap (a b : List UInt8) : bytesCompare b a = - bytesCompare a b := by
  induction a generalizing b with
  | nil => cases b <;> simp [bytesCompare]
  | cons x xs ih =>
    cases b with
    | nil => simp [bytesCompare]
    | cons y ys =>
      simp only [bytesCompare, u8_lt_iff]
      split_ifs <;> first | omega | simp [ih]

theorem bytesCompare_eq_zero {a b : List UInt8} (h : bytesCompare a b = 0) : a = b := by
  induction a generalizing b with
  | nil => cases b <;> simp_all [bytesCompare]
  | cons x xs ih =>
    cases b with
    | nil => simp [bytesCompare] at h
    | cons y ys =>
      simp only [bytesCompare, u8_lt_iff] at h
      by_cases h1 : x.toNat < y.toNat
      · simp [h1] at h
      · by_cases h2 : y.toNat < x.toNat
        · simp [h1, h2] at h
        · simp only [h1, h2, if_false] at h
          have hxy : x = y := UInt8.toNat.inj (by omega)
          rw [hxy, ih h]

theorem bytesCompare_lt_trans {a b c : List UInt8}
    (h1 : bytesCompare a b < 0) (h2 : bytesCompare b c < 0) : bytesCompare a c < 0 := by
  induction a generalizing b c with
  | nil =>
    cases b with
    | nil => simp [bytesCompare] at h1
    | cons y ys =>
      cases c with
      | nil => simp [bytesCompare] at h2
      | cons z zs => simp [bytesCompare]
  | cons x xs ih =>
    cases b with
    | nil => simp [bytesCompare] at h1
    | cons y ys =>
      cases c with
      | nil => simp [bytesCompare] at h2
      | cons z zs =>
        simp only [bytesCompare, u8_lt_iff] at h1 h2 ⊢
        split_ifs at h1 h2 ⊢ <;> first | omega | exact ih h1 h2

theorem bytesCompare_le_iff (a b : List UInt8) :
    bytesCompare a b ≤ 0 ↔ bytesCompare a b < 0 ∨ a = b := by
  constructor
  · intro h
    rcases lt_or_eq_of_le h with h | h
    · exact Or.inl h
    · exact Or.inr (bytesCompare_eq_zero h)
  · rintro (h | rfl)
    · omega
    · simp [bytesCompare_self]

theorem bytesCompare_le_trans {a b c : List UInt8}
    (h1 : bytesCompare a b ≤ 0) (h2 : bytesCompare b c ≤ 0) : bytesCompare a c ≤ 0 := by
  rw [bytesCompare_le_iff] at h1 h2 ⊢
  rcases h1 with h1 | rfl
  · rcases h2 with h2 | rfl
    · exact Or.inl (bytesCompare_lt_trans h1 h2)
    · exact Or.inl h1
  · exact h2

theorem bytesCompare_antisymm {a b : List UInt8}
    (h1 : bytesCompare a b ≤ 0) (h2 : bytesCompare b a ≤ 0) : a = b := by
  rw [bytesCompare_swap] at h2
  exact bytesCompare_eq_zero (by omega)

/-! ### The comparator -/

theorem less_eq_false_iff (h : Hasher) (key a b : GoString) :
    less h key b a = false ↔ bytesCompare (score h key a) (score h key b) ≤ 0 := by
  unfold less
  rw [decide_eq_false_iff_not, bytesCompare_swap (score h key a) (score h key b)]
  omega

theorem less_eq_true_iff (h : Hasher) (key a b : GoString) :
    less h key a b = true ↔ bytesCompare (score h key a) (score h key b) < 0 := by
  unfold less
  rw [decide_eq_true_iff]

theorem less_strictWeakOrder (h : Hasher) (key : GoString) : StrictWeakOrder (less h key) where
  irrefl a := by rw [less_eq_false_iff]; simp [bytesCompare_self]
  trans a b c hab hbc := by
    rw [less_eq_true_iff] at *
    exact bytesCompare_lt_trans hab hbc
  incompTrans a b c hab hbc := by
    rw [less_eq_false_iff] at *
    exact bytesCompare_le_trans hbc hab

theorem stringLess_strictWeakOrder : StrictWeakOrder stringLess where
  irrefl a := by simp [stringLess, bytesCompare_self]
  trans a b c hab hbc := by
    simp only [stringLess, decide_eq_true_iff] at *
    exact bytesCompare_lt_trans hab hbc
  incompTrans a b c hab hbc := by
    simp only [stringLess, decide_eq_false_iff_not, not_lt] at *
    rw [bytesCompare_swap] at hab hbc ⊢
    have := @bytesCompare_le_trans c b a (by omega) (by omega)
    omega

/-! ### The sorting routine -/

theorem StrictWeakOrder.asymm {less : GoString → GoString → Bool} (hl : StrictWeakOrder less)
    {a b : GoString} (hab : less a b = true) : less b a = false := by
  by_contra hba
  have h1 := hl.trans a b a hab (by simpa using hba)
  rw [hl.irrefl a] at h1
  exact Bool.noConfusion h1

theorem insertLeft_perm {α : Type} (less : α → α → Bool) (x : α) (l : List α) :
    (insertLeft less x l).Perm (x :: l) := by
  induction l with
  | nil => exact List.Perm.refl _
  | cons y ys ih =>
    unfold insertLeft
    split_ifs
    · exact (List.Perm.cons y ih).trans (List.Perm.swap x y ys)
    · exact List.Perm.refl _

theorem foldl_insertLeft_perm {α : Type} (less : α → α → Bool) (xs acc : List α) :
    (xs.foldl (fun sortedRev x => insertLeft less x sortedRev) acc).Perm (xs ++ acc) := by
  induction xs generalizing acc with
  | nil => exact List.Perm.refl _
  | cons x xs ih =>
    rw [List.foldl_cons]
    refine (ih _).trans ?_
    refine (List.Perm.append_left xs (insertLeft_perm less x acc)).trans ?_
    exact List.perm_middle

theorem insertionSort_perm {α : Type} (less : α → α → Bool) (xs : List α) :
    (insertionSort less xs).Perm xs := by
  unfold insertionSort
  refine (List.reverse_perm _).trans ?_
  simpa using foldl_insertLeft_perm less xs []

theorem insertLeft_pairwise {less : GoString → GoString → Bool} (hl : StrictWeakOrder less)
    (x : GoString) (l : List GoString) (hp : l.Pairwise (fun a b => less a b = false)) :
    (insertLeft less x l).Pairwise (fun a b => less a b = false) := by
  induction l with
  | nil => simp [insertLeft]
  | cons y ys ih =>
    rw [List.pairwise_cons] at hp
    unfold insertLeft
    split_ifs with hxy
    · rw [List.pairwise_cons]
      refine ⟨?_, ih hp.2⟩
      intro z hz
      have hz2 : z ∈ x :: ys := (insertLeft_perm less x ys).mem_iff.mp hz
      rw [List.mem_cons] at hz2
      rcases hz2 with rfl | hz2
      · exact hl.asymm hxy
      · exact hp.1 z hz2
    · have hxy2 : less x y = false := by simpa using hxy
      rw [List.pairwise_cons]
      refine ⟨?_, List.pairwise_cons.mpr hp⟩
      intro z hz
      rw [List.mem_cons] at hz
      rcases hz with rfl | hz
      · exact hxy2
      · exact hl.incompTrans x y z hxy2 (hp.1 z hz)

theorem foldl_insertLeft_pairwise {less : GoString → GoString → Bool}
    (hl : StrictWeakOrder less) (xs acc : List GoString)
    (hp : acc.Pairwise (fun a b => less a b = false)) :
    (xs.foldl (fun sortedRev x => insertLeft less x sortedRev) acc).Pairwise
      (fun a b => less a b = false) := by
  induction xs generalizing acc with
  | nil => exact hp
  | cons x xs ih => exact ih _ (insertLeft_pairwise hl x acc hp)

/-- The library's insertion sort meets the contract of the sorting routines. -/
theorem insertionSort_contract : SortContract insertionSorter where
  perm less xs := insertionSort_perm less xs
  sorted less xs hl := by
    unfold insertionSorter insertionSort
    rw [List.pairwise_reverse]
    exact foldl_insertLeft_pairwise hl xs [] List.Pairwise.nil

/-! ### The reversal loop -/

theorem swap_length {α : Type} (l : List α) (i j : Nat) : (swap l i j).length = l.length := by
  unfold swap
  split <;> simp

theorem swap_getElem? {α : Type} (l : List α) (i j k : Nat) (hi : i < l.length)
    (hj : j < l.length) :
    (swap l i j)[k]? = if k = j then l[i]? else if k = i then l[j]? else l[k]? := by
  unfold swap
  rw [List.getElem?_eq_getElem hi, List.getElem?_eq_getElem hj]
  simp only [List.getElem?_set, List.length_set]
  by_cases h1 : k = j
  · subst h1; simp [hj]
  · by_cases h2 : k = i
    · subst h2; simp [h1, hi, Ne.symm h1]
    · simp [h1, h2, Ne.symm h1, Ne.symm h2]

theorem reverseLoop_length {α : Type} (n : Nat) (l : List α) :
    (reverseLoop n l).length = l.length := by
  induction n generalizing l with
  | zero => rfl
  | succ n ih => rw [reverseLoop, ih, swap_length]

theorem reverseLoop_getElem? {α : Type} (n : Nat) (l : List α) (hn : 2 * n ≤ l.length)
    (k : Nat) (hk : k < l.length) :
    (reverseLoop n l)[k]? =
      if n ≤ k ∧ k + n < l.length then l[k]? else l[l.length - 1 - k]? := by
  induction n generalizing l k with
  | zero => simp [reverseLoop, hk]
  | succ n ih =>
    rw [reverseLoop, ih _ (by rw [swap_length]; omega) k (by rw [swap_length]; exact hk)]
    rw [swap_length, swap_getElem? l n _ k (by omega) (by omega),
      swap_getElem? l n _ (l.length - 1 - k) (by omega) (by omega)]
    by_cases h1 : n + 1 ≤ k ∧ k + (n + 1) < l.length
    · have h2 : n ≤ k ∧ k + n < l.length := by omega
      have h3 : ¬ k = l.length - 1 - n := by omega
      have h4 : ¬ k = n := by omega
      simp only [h1, h2, h3, h4, and_self, if_true, if_false]
    · rw [if_neg h1]
      by_cases h2 : n ≤ k ∧ k + n < l.length
      · rw [if_pos h2]
        rcases (show k = n ∨ k = l.length - 1 - n by omega) with h5 | h5
        · by_cases h6 : k = l.length - 1 - n
          · exfalso; omega
          · rw [if_neg h6, if_pos h5]
            congr 1; omega
        · rw [if_pos h5]
          congr 1; omega
      · rw [if_neg h2]
        have h3 : ¬ l.length - 1 - k = l.length - 1 - n := by omega
        have h4 : ¬ l.length - 1 - k = n := by omega
        rw [if_neg h3, if_neg h4]

theorem reverseLoop_eq_reverse {α : Type} (l : List α) :
    reverseLoop (l.length / 2) l = l.reverse := by
  apply List.ext_getElem?
  intro k
  by_cases hk : k < l.length
  · rw [reverseLoop_getElem? _ l (by omega) k hk, List.getElem?_reverse hk]
    split_ifs with h
    · congr 1; omega
    · rfl
  · rw [List.getElem?_eq_none (by rw [reverseLoop_length]; omega),
      List.getElem?_eq_none (by rw [List.length_reverse]; omega)]

/-! ### The shape of `priorityList` -/

theorem Enumerates.length_eq {enum : List GoString} {members : Finset GoString}
    (he : Enumerates enum members) : enum.length = members.card := by
  rw [← he.2, List.toFinset_card_of_nodup he.1]

theorem Enumerates.mem_iff {enum : List GoString} {members : Finset GoString}
    (he : Enumerates enum members) (m : GoString) : m ∈ enum ↔ m ∈ members := by
  rw [← he.2, List.mem_toFinset]

/-- With a faithful enumeration, `priorityList` is the enumeration itself for at most one member,
and otherwise the sorted enumeration, reversed under `HighestFirst`. -/
theorem priorityList_eq (srt : Sorter) (h : Hasher) (enum : List GoString) (key : GoString)
    (he : Enumerates enum h.members) :
    priorityList srt h enum key =
      if h.members.card ≤ 1 then enum
      else if h.order = HighestFirst then (srt (less h key) enum).reverse
      else srt (less h key) enum := by
  have hlen := he.length_eq
  unfold priorityList
  by_cases h0 : h.members.card = 0
  · have hnil : enum = [] := List.length_eq_zero.mp (hlen.trans h0)
    simp [h0, hnil]
  · by_cases h1 : h.members.card = 1
    · obtain ⟨m, rfl⟩ := List.length_eq_one.mp (hlen.trans h1)
      simp [h1]
    · have h2 : ¬ h.members.card ≤ 1 := by omega
      simp only [if_neg h0, if_neg h1, if_neg h2, reverseLoop_eq_reverse]

theorem priorityList_perm (srt : Sorter) (hsrt : SortContract srt) (h : Hasher)
    (enum : List GoString) (key : GoString) (he : Enumerates enum h.members) :
    (priorityList srt h enum key).Perm enum := by
  rw [priorityList_eq srt h enum key he]
  split_ifs
  · exact List.Perm.refl _
  · exact (List.reverse_perm _).trans (hsrt.perm _ _)
  · exact hsrt.perm _ _

theorem priorityList_length (srt : Sorter) (hsrt : SortContract srt) (h : Hasher)
    (enum : List GoString) (key : GoString) (he : Enumerates enum h.members) :
    (priorityList srt h enum key).length = h.members.card := by
  rw [(priorityList_perm srt hsrt h enum key he).length_eq, he.length_eq]

theorem priorityList_mem_iff (srt : Sorter) (hsrt : SortContract srt) (h : Hasher)
    (enum : List GoString) (key : GoString) (he : Enumerates enum h.members) (m : GoString) :
    m ∈ priorityList srt h enum key ↔ m ∈ h.members := by
  rw [(priorityList_perm srt hsrt h enum key he).mem_iff, he.mem_iff]

theorem pairwise_of_length_le_one {α : Type} (R : α → α → Prop) (l : List α)
    (hl : l.length ≤ 1) : l.Pairwise R := by
  match l, hl with
  | [], _ => exact List.Pairwise.nil
  | [a], _ => exact List.pairwise_singleton R a

theorem sorted_scores (srt : Sorter) (hsrt : SortContract srt) (h : Hasher)
    (enum : List GoString) (key : GoString) :
    (srt (less h key) enum).Pairwise
      (fun a b => bytesCompare (score h key a) (score h key b) ≤ 0) :=
  (hsrt.sorted (less h key) enum (less_strictWeakOrder h key)).imp
    (fun {a b} hab => (less_eq_false_iff h key a b).mp hab)

/-- Under `LowestFirst` the scores never decrease along the list. -/
theorem priorityList_sorted_lowest (srt : Sorter) (hsrt : SortContract srt) (h : Hasher)
    (enum : List GoString) (key : GoString) (he : Enumerates enum h.members)
    (ho : h.order = LowestFirst) :
    (priorityList srt h enum key).Pairwise
      (fun a b => bytesCompare (score h key a) (score h key b) ≤ 0) := by
  rw [priorityList_eq srt h enum key he]
  have hno : ¬ h.order = HighestFirst := by rw [ho]; decide
  rw [if_neg hno]
  split_ifs with h1
  · exact pairwise_of_length_le_one _ _ (by rw [he.length_eq]; exact h1)
  · exact sorted_scores srt hsrt h enum key

/-- Under `HighestFirst` the scores never increase along the list. -/
theorem priorityList_sorted_highest (srt : Sorter) (hsrt : SortContract srt) (h : Hasher)
    (enum : List GoString) (key : GoString) (he : Enumerates enum h.members)
    (ho : h.order = HighestFirst) :
    (priorityList srt h enum key).Pairwise
      (fun a b => bytesCompare (score h key b) (score h key a) ≤ 0) := by
  rw [priorityList_eq srt h enum key he]
  rw [if_pos ho]
  split_ifs with h1
  · exact pairwise_of_length_le_one _ _ (by rw [he.length_eq]; exact h1)
  · rw [List.pairwise_reverse]
    exact sorted_scores srt hsrt h enum key

/-! ### Ranking -/

/-- C1: for every member set (non-empty or not), every key, either sort order, every digest and
every order in which the map is enumerated, the list returned by `priorityList` (`Prioritise`)
is a permutation of the member set: it has as many elements as there are members, has no
duplicates, and a string occurs in it exactly when it is a member. -/
theorem priorityList_permutation (srt : Sorter) (hsrt : SortContract srt) (h : Hasher)
    (enum : List GoString) (he : Enumerates enum h.members) (key : GoString) :
    (Prioritise srt h enum key).length = h.members.card ∧
    (Prioritise srt h enum key).Nodup ∧
    ∀ m, m ∈ Prioritise srt h enum key ↔ m ∈ h.members := by
  exact ⟨priorityList_length srt hsrt h enum key he,
    (priorityList_perm srt hsrt h enum key he).nodup_iff.mpr he.1,
    priorityList_mem_iff srt hsrt h enum key he⟩

/-- An instance of the permutation property: two members, enumerated as `node2`, `node1`. -/
theorem priorityList_permutation_witness :
    (Prioritise insertionSorter (twoNodes HighestFirst) [str "node2", str "node1"]
        (str "item")).length = (twoNodes HighestFirst).members.card ∧
    (Prioritise insertionSorter (twoNodes HighestFirst) [str "node2", str "node1"]
        (str "item")).Nodup ∧
    ∀ m, m ∈ Prioritise insertionSorter (twoNodes HighestFirst) [str "node2", str "node1"]
        (str "item") ↔ m ∈ (twoNodes HighestFirst).members :=
  priorityList_permutation insertionSorter insertionSort_contract (twoNodes HighestFirst)
    [str "node2", str "node1"] (by decide) (str "item")

/-- C2: for every member set (with two members or more, and trivially with fewer), every key
and every digest, the scores
`digest (member ++ key)` along the list returned by `priorityList` never decrease under
`LowestFirst` and never increase under `HighestFirst`, in the byte-wise lexicographic order of
`bytes.Compare`. -/
theorem priorityList_scores_monotone (srt : Sorter) (hsrt : SortContract srt) (h : Hasher)
    (enum : List GoString) (he : Enumerates enum h.members) (key : GoString) :
    (h.order = LowestFirst →
      (priorityList srt h enum key).Pairwise
        (fun a b => bytesCompare (h.hash (a ++ key)) (h.hash (b ++ key)) ≤ 0)) ∧
    (h.order = HighestFirst →
      (priorityList srt h enum key).Pairwise
        (fun a b => 0 ≤ bytesCompare (h.hash (a ++ key)) (h.hash (b ++ key)))) := by
  refine ⟨fun ho => priorityList_sorted_lowest srt hsrt h enum key he ho, fun ho => ?_⟩
  refine (priorityList_sorted_highest srt hsrt h enum key he ho).imp ?_
  intro a b hab
  have hs := bytesCompare_swap (score h key b) (score h key a)
  unfold score at hs hab
  omega

/-- An instance of the monotone scores: two members under `HighestFirst`. -/
theorem priorityList_scores_monotone_witness :
    ((twoNodes HighestFirst).order = LowestFirst →
      (priorityList insertionSorter (twoNodes HighestFirst) [str "node1", str "node2"]
        (str "item")).Pairwise
        (fun a b => bytesCompare ((twoNodes HighestFirst).hash (a ++ str "item"))
          ((twoNodes HighestFirst).hash (b ++ str "item")) ≤ 0)) ∧
    ((twoNodes HighestFirst).order = HighestFirst →
      (priorityList insertionSorter (twoNodes HighestFirst) [str "node1", str "node2"]
        (str "item")).Pairwise
        (fun a b => 0 ≤ bytesCompare ((twoNodes HighestFirst).hash (a ++ str "item"))
          ((twoNodes HighestFirst).hash (b ++ str "item")))) :=
  priorityList_scores_monotone insertionSorter insertionSort_contract (twoNodes HighestFirst)
    [str "node1", str "node2"] (by decide) (str "item")

/-! ### Owner and placement -/

theorem priorityList_eq_nil_iff (srt : Sorter) (hsrt : SortContract srt) (h : Hasher)
    (enum : List GoString) (key : GoString) (he : Enumerates enum h.members) :
    priorityList srt h enum key = [] ↔ h.members = ∅ := by
  rw [← List.length_eq_zero, priorityList_length srt hsrt h enum key he, Finset.card_eq_zero]

theorem Owner_first (srt : Sorter) (hsrt : SortContract srt) (h : Hasher)
    (enum : List GoString) (key : GoString) (he : Enumerates enum h.members)
    (hne : h.members ≠ ∅) :
    ∃ first rest,
      priorityList srt h enum key = first :: rest ∧ Owner srt h enum key = some first := by
  have hnil := priorityList_eq_nil_iff srt hsrt h enum key he
  unfold Owner
  cases hpl : priorityList srt h enum key with
  | nil => rw [hpl] at hnil; exact absurd (hnil.mp rfl) hne
  | cons first rest => exact ⟨first, rest, rfl, List.getElem?_cons_zero⟩

/-- The index expression of `Owner` panics exactly when the member set is empty; for every
non-empty member set and every key `Owner` returns the first element of `priorityList`. -/
theorem Owner_none_iff_empty (srt : Sorter) (hsrt : SortContract srt) (h : Hasher)
    (enum : List GoString) (he : Enumerates enum h.members) (key : GoString) :
    (Owner srt h enum key = none ↔ h.members = ∅) ∧
    (h.members ≠ ∅ → ∃ first rest,
      priorityList srt h enum key = first :: rest ∧ Owner srt h enum key = some first) := by
  have hnil := priorityList_eq_nil_iff srt hsrt h enum key he
  unfold Owner
  cases hpl : priorityList srt h enum key with
  | nil =>
    rw [hpl] at hnil
    exact ⟨⟨fun _ => hnil.mp rfl, fun _ => rfl⟩, fun hne => absurd (hnil.mp rfl) hne⟩
  | cons first rest =>
    rw [hpl] at hnil
    refine ⟨⟨fun hc => ?_, fun he0 => ?_⟩,
      fun _ => ⟨first, rest, rfl, List.getElem?_cons_zero⟩⟩
    · simp at hc
    · exact absurd (hnil.mpr he0) (by simp)

/-- C3, at the failing input: the hasher `NewHasher()` has no members, `priorityList` returns
the empty slice at its first guard, and `Owner` indexes element 0 of that slice, so for every
sort routine and key the call panics with index out of range (the result `none`).  `Owner` has
no error result and the source defines no `EmptyMembership` error, while `priorityList` and
`place` both guard the empty member set. -/
theorem Owner_panics_on_empty :
    (NewHasher []).members = ∅ ∧
    Enumerates [] (NewHasher []).members ∧
    (∀ (srt : Sorter) (key : GoString),
      priorityList srt (NewHasher []) [] key = [] ∧
      place srt (NewHasher []) [] key 1 = some [] ∧
      Owner srt (NewHasher []) [] key = none) :=
  ⟨rfl, by decide, fun _ _ => ⟨rfl, rfl, rfl⟩⟩

theorem place_take_core (srt : Sorter) (hsrt : SortContract srt) (h : Hasher)
    (enum : List GoString) (key : GoString) (he : Enumerates enum h.members) (n : Int) :
    place srt h enum key n =
      some ((priorityList srt h enum key).take (min (max n 0) h.members.card).toNat) := by
  have hlen := priorityList_length srt hsrt h enum key he
  unfold place
  by_cases h0 : h.members.card = 0 ∨ n ≤ 0
  · rw [if_pos h0]
    rcases h0 with h0 | h0
    · rw [List.take_of_length_le (by omega)]
      exact congrArg some (List.length_eq_zero.mp (hlen.trans h0)).symm
    · have hz : (min (max n 0) (h.members.card : Int)).toNat = 0 := by omega
      rw [hz, List.take_zero]
  · rw [if_neg h0]
    have hc : h.members.card ≠ 0 := fun hc => h0 (Or.inl hc)
    have hn : 0 < n := by
      by_contra hn
      exact h0 (Or.inr (by omega))
    by_cases hgt : n > (h.members.card : Int)
    · simp only [if_pos hgt]
      unfold sliceTo
      rw [if_pos (by omega)]
      congr 2
      omega
    · simp only [if_neg hgt]
      unfold sliceTo
      rw [if_pos (by omega)]
      congr 2
      omega

/-- C4: for every member set, key and integer `n` (negative, zero or larger than the number of
members included), `place` does not fail and returns the first `min (max n 0) |M|` elements of
`priorityList`, in the same order. -/
theorem place_eq_take (srt : Sorter) (hsrt : SortContract srt) (h : Hasher)
    (enum : List GoString) (he : Enumerates enum h.members) (key : GoString) (n : Int) :
    place srt h enum key n =
      some ((priorityList srt h enum key).take (min (max n 0) h.members.card).toNat) :=
  place_take_core srt hsrt h enum key he n

/-- An instance of placement with `n = 3` over two members: the count is clamped to two. -/
theorem place_eq_take_witness :
    place insertionSorter (twoNodes HighestFirst) [str "node1", str "node2"] (str "item") 3 =
      some ((priorityList insertionSorter (twoNodes HighestFirst) [str "node1", str "node2"]
        (str "item")).take (min (max (3 : Int) 0) (twoNodes HighestFirst).members.card).toNat) :=
  place_eq_take insertionSorter insertionSort_contract (twoNodes HighestFirst)
    [str "node1", str "node2"] (by decide) (str "item") 3

theorem owner_extremal_core (srt : Sorter) (hsrt : SortContract srt) (h : Hasher)
    (enum : List GoString) (key : GoString) (he : Enumerates enum h.members)
    (hne : h.members ≠ ∅) :
    ∃ owner, Owner srt h enum key = some owner ∧ owner ∈ h.members ∧
      (h.order = HighestFirst → ∀ m ∈ h.members,
        bytesCompare (score h key m) (score h key owner) ≤ 0) ∧
      (h.order = LowestFirst → ∀ m ∈ h.members,
        bytesCompare (score h key owner) (score h key m) ≤ 0) := by
  obtain ⟨first, rest, hpl, hown⟩ := Owner_first srt hsrt h enum key he hne
  have hmem := priorityList_mem_iff srt hsrt h enum key he
  refine ⟨first, hown, (hmem first).mp (by rw [hpl]; exact List.mem_cons_self _ _), ?_, ?_⟩
  · intro ho m hm
    have hs := priorityList_sorted_highest srt hsrt h enum key he ho
    rw [hpl, List.pairwise_cons] at hs
    have hm2 := (hmem m).mpr hm
    rw [hpl, List.mem_cons] at hm2
    rcases hm2 with rfl | hm2
    · rw [bytesCompare_self]
    · exact hs.1 m hm2
  · intro ho m hm
    have hs := priorityList_sorted_lowest srt hsrt h enum key he ho
    rw [hpl, List.pairwise_cons] at hs
    have hm2 := (hmem m).mpr hm
    rw [hpl, List.mem_cons] at hm2
    rcases hm2 with rfl | hm2
    · rw [bytesCompare_self]
    · exact hs.1 m hm2

/-- C5: for a non-empty member set, the member returned by `Owner` has an extremal score
`digest (member ++ key)` among all members: no member scores higher under `HighestFirst`, and
no member scores lower under `LowestFirst`, in the order of `bytes.Compare`. -/
theorem Owner_extremal (srt : Sorter) (hsrt : SortContract srt) (h : Hasher)
    (enum : List GoString) (he : Enumerates enum h.members) (key : GoString)
    (hne : h.members ≠ ∅) :
    ∃ owner, Owner srt h enum key = some owner ∧ owner ∈ h.members ∧
      (h.order = HighestFirst → ∀ m ∈ h.members,
        0 ≤ bytesCompare (h.hash (owner ++ key)) (h.hash (m ++ key))) ∧
      (h.order = LowestFirst → ∀ m ∈ h.members,
        bytesCompare (h.hash (owner ++ key)) (h.hash (m ++ key)) ≤ 0) := by
  obtain ⟨owner, hown, hmem, hhi, hlo⟩ := owner_extremal_core srt hsrt h enum key he hne
  refine ⟨owner, hown, hmem, fun ho m hm => ?_, fun ho m hm => hlo ho m hm⟩
  have h1 := hhi ho m hm
  have h2 := bytesCompare_swap (score h key m) (score h key owner)
  unfold score at h1 h2
  omega

/-- An instance of the extremal score of the owner on a two-member set. -/
theorem Owner_extremal_witness :
    ∃ owner, Owner insertionSorter (twoNodes HighestFirst) [str "node1", str "node2"]
        (str "item") = some owner ∧ owner ∈ (twoNodes HighestFirst).members ∧
      ((twoNodes HighestFirst).order = HighestFirst → ∀ m ∈ (twoNodes HighestFirst).members,
        0 ≤ bytesCompare ((twoNodes HighestFirst).hash (owner ++ str "item"))
          ((twoNodes HighestFirst).hash (m ++ str "item"))) ∧
      ((twoNodes HighestFirst).order = LowestFirst → ∀ m ∈ (twoNodes HighestFirst).members,
        bytesCompare ((twoNodes HighestFirst).hash (owner ++ str "item"))
          ((twoNodes HighestFirst).hash (m ++ str "item")) ≤ 0) :=
  Owner_extremal insertionSorter insertionSort_contract (twoNodes HighestFirst)
    [str "node1", str "node2"] (by decide) (str "item") (by decide)

/-! ### Uniqueness of the ranking when scores are distinct -/

/-- Two arrangements of the same elements, both sorted by a relation that is antisymmetric on
those elements, are the same list. -/
theorem sorted_perm_unique {α : Type} (R : α → α → Prop) :
    ∀ (l1 l2 : List α), l1.Perm l2 → l1.Pairwise R → l2.Pairwise R →
      (∀ a ∈ l1, ∀ b ∈ l1, R a b → R b a → a = b) → l1 = l2
  | [], l2, hp, _, _, _ => (List.Perm.nil_eq hp)
  | a :: t1, [], hp, _, _, _ => absurd hp.length_eq (by simp)
  | a :: t1, b :: t2, hp, h1, h2, hanti => by
    rw [List.pairwise_cons] at h1 h2
    have hab : a = b := by
      by_contra hne
      have ha : a ∈ b :: t2 := hp.mem_iff.mp (List.mem_cons_self a t1)
      have hb : b ∈ a :: t1 := hp.mem_iff.mpr (List.mem_cons_self b t2)
      rw [List.mem_cons] at ha hb
      rcases ha with ha | ha
      · exact hne ha
      · rcases hb with hb | hb
        · exact hne hb.symm
        · exact hne (hanti a (List.mem_cons_self a t1) b (List.mem_cons_of_mem a hb)
            (h1.1 b hb) (h2.1 a ha))
    subst hab
    have ht : t1 = t2 := sorted_perm_unique R t1 t2 (List.Perm.cons_inv hp) h1.2 h2.2
      (fun x hx y hy => hanti x (List.mem_cons_of_mem a hx) y (List.mem_cons_of_mem a hy))
    rw [ht]

/-! ### Membership after the mutating calls -/

theorem foldl_insert_eq (ids : List GoString) (M : Finset GoString) :
    ids.foldl (fun m member => insert member m) M = M ∪ ids.toFinset := by
  induction ids generalizing M with
  | nil => simp
  | cons x xs ih =>
    rw [List.foldl_cons, ih]
    ext y
    simp only [Finset.mem_union, Finset.mem_insert, List.mem_toFinset, List.mem_cons]
    tauto

theorem foldl_erase_eq (ids : List GoString) (M : Finset GoString) :
    ids.foldl (fun m member => m.erase member) M = M \ ids.toFinset := by
  induction ids generalizing M with
  | nil => simp
  | cons x xs ih =>
    rw [List.foldl_cons, ih]
    ext y
    simp only [Finset.mem_sdiff, Finset.mem_erase, List.mem_toFinset, List.mem_cons]
    tauto

theorem AddMembers_members (h : Hasher) (ids : List GoString) :
    (AddMembers h ids).members = h.members ∪ ids.toFinset :=
  foldl_insert_eq ids h.members

theorem RemoveMembers_members (h : Hasher) (ids : List GoString) :
    (RemoveMembers h ids).members = h.members \ ids.toFinset :=
  foldl_erase_eq ids h.members

/-! ### Minimal remapping -/

theorem owner_stable_core (srt : Sorter) (hsrt : SortContract srt) (h : Hasher)
    (key : GoString) (hd : DistinctScores h key h.members)
    (enum : List GoString) (he : Enumerates enum h.members)
    (owner : GoString) (hown : Owner srt h enum key = some owner)
    (M' : Finset GoString) (enum' : List GoString) (hsub : M' ⊆ h.members)
    (he' : Enumerates enum' M') (hmem : owner ∈ M') :
    Owner srt { h with members := M' } enum' key = some owner := by
  have hne' : M' ≠ ∅ := Finset.ne_empty_of_mem hmem
  have hne : h.members ≠ ∅ := Finset.ne_empty_of_mem (hsub hmem)
  obtain ⟨o, ho, homem, hhi, hlo⟩ := owner_extremal_core srt hsrt h enum key he hne
  obtain ⟨o', ho', homem', hhi', hlo'⟩ :=
    owner_extremal_core srt hsrt { h with members := M' } enum' key he' hne'
  rw [hown] at ho
  cases ho
  rw [ho']
  congr 1
  apply hd o' (hsub homem') owner homem
  show score h key o' = score h key owner
  cases hord : h.order with
  | false =>
    exact bytesCompare_antisymm (hhi hord o' (hsub homem')) (hhi' hord owner hmem)
  | true =>
    exact bytesCompare_antisymm (hlo' hord owner hmem) (hlo hord o' (hsub homem'))

/-- C6: minimal remapping of the owner.  When the scores for the key are pairwise distinct on
the member set `M` and `owner` is the owner over `M`: over every subset `M'` of `M` that still
contains `owner` the owner is the same member; hence removing members other than the owner
does not change the owner; and if `M` arose from a state by adding members, then `owner` was
already the owner before the addition or is one of the added members. -/
theorem Owner_minimal_remapping (srt : Sorter) (hsrt : SortContract srt) (h : Hasher)
    (key : GoString) (hd : DistinctScores h key h.members)
    (enum : List GoString) (he : Enumerates enum h.members)
    (owner : GoString) (hown : Owner srt h enum key = some owner) :
    (∀ (M' : Finset GoString) (enum' : List GoString), M' ⊆ h.members →
      Enumerates enum' M' → owner ∈ M' →
      Owner srt { h with members := M' } enum' key = some owner) ∧
    (∀ (ids : List GoString) (enum' : List GoString),
      Enumerates enum' (RemoveMembers h ids).members → owner ∉ ids →
      Owner srt (RemoveMembers h ids) enum' key = some owner) ∧
    (∀ (h0 : Hasher) (ids : List GoString) (enum0 : List GoString),
      AddMembers h0 ids = h → Enumerates enum0 h0.members →
      Owner srt h0 enum0 key = some owner ∨ owner ∈ ids) := by
  have hom : owner ∈ h.members := by
    have hne : h.members ≠ ∅ := by
      intro hempty
      have hnil := (priorityList_eq_nil_iff srt hsrt h enum key he).mpr hempty
      unfold Owner at hown
      rw [hnil] at hown
      simp at hown
    obtain ⟨o, ho, homem, _⟩ := owner_extremal_core srt hsrt h enum key he hne
    rw [hown] at ho
    cases ho
    exact homem
  refine ⟨fun M' enum' hsub he' hmem =>
    owner_stable_core srt hsrt h key hd enum he owner hown M' enum' hsub he' hmem, ?_, ?_⟩
  · intro ids enum' he' hnot
    have hm := RemoveMembers_members h ids
    exact owner_stable_core srt hsrt h key hd enum he owner hown (RemoveMembers h ids).members
      enum' (by rw [hm]; exact Finset.sdiff_subset) he'
      (by rw [hm, Finset.mem_sdiff, List.mem_toFinset]; exact ⟨hom, hnot⟩)
  · intro h0 ids enum0 hadd he0
    by_cases hin : owner ∈ ids
    · exact Or.inr hin
    · left
      have hm := AddMembers_members h0 ids
      rw [hadd] at hm
      have hom0 : owner ∈ h0.members := by
        rw [hm, Finset.mem_union, List.mem_toFinset] at hom
        exact hom.resolve_right hin
      have hst := owner_stable_core srt hsrt h key hd enum he owner hown h0.members enum0
        (by rw [hm]; exact Finset.subset_union_left) he0 hom0
      have hh : ({ h with members := h0.members } : Hasher) = h0 := by
        rw [← hadd]; rfl
      rw [hh] at hst
      exact hst

/-- An instance of minimal remapping: over `node1`, `node2` with the identity digest and
`HighestFirst` the owner of `item` is `node2`. -/
theorem Owner_minimal_remapping_witness :
    (∀ (M' : Finset GoString) (enum' : List GoString), M' ⊆ (twoNodes HighestFirst).members →
      Enumerates enum' M' → str "node2" ∈ M' →
      Owner insertionSorter { twoNodes HighestFirst with members := M' } enum' (str "item")
        = some (str "node2")) ∧
    (∀ (ids : List GoString) (enum' : List GoString),
      Enumerates enum' (RemoveMembers (twoNodes HighestFirst) ids).members →
      str "node2" ∉ ids →
      Owner insertionSorter (RemoveMembers (twoNodes HighestFirst) ids) enum' (str "item")
        = some (str "node2")) ∧
    (∀ (h0 : Hasher) (ids : List GoString) (enum0 : List GoString),
      AddMembers h0 ids = twoNodes HighestFirst → Enumerates enum0 h0.members →
      Owner insertionSorter h0 enum0 (str "item") = some (str "node2") ∨
        str "node2" ∈ ids) :=
  Owner_minimal_remapping insertionSorter insertionSort_contract (twoNodes HighestFirst)
    (str "item") (fun _ _ _ _ hab => List.append_cancel_right hab)
    [str "node1", str "node2"] (by decide) (str "node2") (by decide)

/-! ### Determinism -/

theorem Enumerates.perm {enum1 enum2 : List GoString} {members : Finset GoString}
    (h1 : Enumerates enum1 members) (h2 : Enumerates enum2 members) : enum1.Perm enum2 :=
  List.perm_of_nodup_nodup_toFinset_eq h1.1 h2.1 (h1.2.trans h2.2.symm)

/-- With pairwise distinct scores, `priorityList` is the only arrangement of the members that is
sorted by score in the configured direction. -/
theorem priorityList_unique_core (srt : Sorter) (hsrt : SortContract srt) (h : Hasher)
    (key : GoString) (hd : DistinctScores h key h.members)
    (enum : List GoString) (he : Enumerates enum h.members)
    (l : List GoString) (hperm : l.Perm enum)
    (hlo : h.order = LowestFirst →
      l.Pairwise (fun a b => bytesCompare (score h key a) (score h key b) ≤ 0))
    (hhi : h.order = HighestFirst →
      l.Pairwise (fun a b => bytesCompare (score h key b) (score h key a) ≤ 0)) :
    priorityList srt h enum key = l := by
  have hp : (priorityList srt h enum key).Perm l :=
    (priorityList_perm srt hsrt h enum key he).trans hperm.symm
  have hmem := priorityList_mem_iff srt hsrt h enum key he
  cases hord : h.order with
  | false =>
    refine sorted_perm_unique _ _ _ hp
      (priorityList_sorted_highest srt hsrt h enum key he hord) (hhi hord) ?_
    intro a ha b hb hab hba
    exact hd a ((hmem a).mp ha) b ((hmem b).mp hb) (bytesCompare_antisymm hba hab)
  | true =>
    refine sorted_perm_unique _ _ _ hp
      (priorityList_sorted_lowest srt hsrt h enum key he hord) (hlo hord) ?_
    intro a ha b hb hab hba
    exact hd a ((hmem a).mp ha) b ((hmem b).mp hb) (bytesCompare_antisymm hab hba)

theorem priorityList_enum_irrelevant_core (srt : Sorter) (hsrt : SortContract srt) (h : Hasher)
    (key : GoString) (hd : DistinctScores h key h.members)
    (enum1 enum2 : List GoString) (he1 : Enumerates enum1 h.members)
    (he2 : Enumerates enum2 h.members) :
    priorityList srt h enum1 key = priorityList srt h enum2 key :=
  priorityList_unique_core srt hsrt h key hd enum1 he1 _
    ((priorityList_perm srt hsrt h enum2 key he2).trans (he2.perm he1))
    (priorityList_sorted_lowest srt hsrt h enum2 key he2)
    (priorityList_sorted_highest srt hsrt h enum2 key he2)

/-- C7, as the code behaves on tied scores: with a digest that returns the same bytes for both
members, two calls over the unchanged member set `node1`, `node2` that enumerate the map in
different orders return different lists. -/
theorem priorityList_enumeration_dependent :
    Enumerates [str "node1", str "node2"] (tiedNodes LowestFirst).members ∧
    Enumerates [str "node2", str "node1"] (tiedNodes LowestFirst).members ∧
    priorityList insertionSorter (tiedNodes LowestFirst) [str "node1", str "node2"]
      (str "item") = [str "node1", str "node2"] ∧
    priorityList insertionSorter (tiedNodes LowestFirst) [str "node2", str "node1"]
      (str "item") = [str "node2", str "node1"] ∧
    priorityList insertionSorter (tiedNodes LowestFirst) [str "node1", str "node2"]
      (str "item") ≠
    priorityList insertionSorter (tiedNodes LowestFirst) [str "node2", str "node1"]
      (str "item") := by
  decide

/-- C7, amended: when the scores for the key are pairwise distinct on the member set, two calls
of `priorityList` with the member set unchanged return identical lists, whatever the orders in
which the two calls enumerate the map. -/
theorem priorityList_deterministic_of_distinct (srt : Sorter) (hsrt : SortContract srt)
    (h : Hasher) (key : GoString) (hd : DistinctScores h key h.members)
    (enum1 enum2 : List GoString) (he1 : Enumerates enum1 h.members)
    (he2 : Enumerates enum2 h.members) :
    priorityList srt h enum1 key = priorityList srt h enum2 key :=
  priorityList_enum_irrelevant_core srt hsrt h key hd enum1 enum2 he1 he2

/-- An instance of determinism with distinct scores: both enumeration orders of `node1`, `node2`
give the same list. -/
theorem priorityList_deterministic_of_distinct_witness :
    priorityList insertionSorter (twoNodes LowestFirst) [str "node1", str "node2"]
      (str "item") =
    priorityList insertionSorter (twoNodes LowestFirst) [str "node2", str "node1"]
      (str "item") :=
  priorityList_deterministic_of_distinct insertionSorter insertionSort_contract
    (twoNodes LowestFirst) (str "item") (fun _ _ _ _ hab => List.append_cancel_right hab)
    [str "node1", str "node2"] [str "node2", str "node1"] (by decide) (by decide)

/-! ### The two sort orders -/

theorem reverse_of_length_le_one {α : Type} (l : List α) (hl : l.length ≤ 1) :
    l.reverse = l := by
  match l, hl with
  | [], _ => rfl
  | [a], _ => rfl

theorem priorityList_highest_eq_reverse_core (srt : Sorter) (h : Hasher)
    (enum : List GoString) (key : GoString) (he : Enumerates enum h.members) :
    priorityList srt { h with order := HighestFirst } enum key =
      (priorityList srt { h with order := LowestFirst } enum key).reverse := by
  have hlen := he.length_eq
  rw [priorityList_eq srt { h with order := HighestFirst } enum key he,
    priorityList_eq srt { h with order := LowestFirst } enum key he]
  show (if h.members.card ≤ 1 then enum
      else if HighestFirst = HighestFirst then (srt (less h key) enum).reverse
      else srt (less h key) enum) =
    (if h.members.card ≤ 1 then enum
      else if LowestFirst = HighestFirst then (srt (less h key) enum).reverse
      else srt (less h key) enum).reverse
  have hlh : ¬ LowestFirst = HighestFirst := by decide
  rw [if_pos rfl, if_neg hlh]
  split_ifs with h1
  · exact (reverse_of_length_le_one enum (by omega)).symm
  · rfl

theorem two_members_ranking_core (srt : Sorter) (hsrt : SortContract srt) (h : Hasher)
    (enum : List GoString) (key : GoString) (he : Enumerates enum h.members)
    (a b : GoString) (hab : h.members = {a, b})
    (hlt : bytesCompare (score h key a) (score h key b) < 0) :
    priorityList srt { h with order := LowestFirst } enum key = [a, b] ∧
    priorityList srt { h with order := HighestFirst } enum key = [b, a] := by
  have hne : a ≠ b := by
    rintro rfl
    rw [bytesCompare_self] at hlt
    exact absurd hlt (by decide)
  have hsne : score h key a ≠ score h key b := by
    intro hs
    rw [hs, bytesCompare_self] at hlt
    exact absurd hlt (by decide)
  have hd : DistinctScores h key h.members := by
    intro x hx y hy hxy
    rw [hab, Finset.mem_insert, Finset.mem_singleton] at hx hy
    rcases hx with rfl | rfl <;> rcases hy with rfl | rfl
    · rfl
    · exact absurd hxy hsne
    · exact absurd hxy.symm hsne
    · rfl
  have hen : Enumerates [a, b] h.members := by
    refine ⟨by simp [hne], ?_⟩
    rw [hab]
    ext x
    simp
  have hlow : priorityList srt { h with order := LowestFirst } enum key = [a, b] := by
    refine priorityList_unique_core srt hsrt { h with order := LowestFirst } key hd enum he
      [a, b] (hen.perm he) (fun _ => ?_)
      (fun ho => absurd (show LowestFirst = HighestFirst from ho) (by decide))
    rw [List.pairwise_cons]
    refine ⟨fun y hy => ?_, List.pairwise_singleton _ _⟩
    rw [List.mem_singleton] at hy
    rw [hy]
    exact le_of_lt hlt
  refine ⟨hlow, ?_⟩
  rw [priorityList_highest_eq_reverse_core srt h enum key he, hlow]
  rfl

/-- C8: for the same member set, enumeration order, key and digest, the list returned under
`HighestFirst` is exactly the reverse of the list returned under `LowestFirst`; the swap loop
reverses a slice of every length; and for two members whose scores are `A < B`, `LowestFirst`
yields the member of `A` then the member of `B`, `HighestFirst` the opposite. -/
theorem HighestFirst_reverses_LowestFirst (srt : Sorter) (hsrt : SortContract srt) (h : Hasher)
    (enum : List GoString) (he : Enumerates enum h.members) (key : GoString) :
    priorityList srt { h with order := HighestFirst } enum key =
      (priorityList srt { h with order := LowestFirst } enum key).reverse ∧
    (∀ members : List GoString, reverseLoop (members.length / 2) members = members.reverse) ∧
    (∀ a b : GoString, h.members = {a, b} →
      bytesCompare (h.hash (a ++ key)) (h.hash (b ++ key)) < 0 →
      priorityList srt { h with order := LowestFirst } enum key = [a, b] ∧
      priorityList srt { h with order := HighestFirst } enum key = [b, a]) :=
  ⟨priorityList_highest_eq_reverse_core srt h enum key he,
    fun members => reverseLoop_eq_reverse members,
    fun a b hab hlt => two_members_ranking_core srt hsrt h enum key he a b hab hlt⟩

/-- An instance of the reversal property on a two-member set. -/
theorem HighestFirst_reverses_LowestFirst_witness :
    priorityList insertionSorter { twoNodes LowestFirst with order := HighestFirst }
        [str "node2", str "node1"] (str "item") =
      (priorityList insertionSorter { twoNodes LowestFirst with order := LowestFirst }
        [str "node2", str "node1"] (str "item")).reverse ∧
    (∀ members : List GoString, reverseLoop (members.length / 2) members = members.reverse) ∧
    (∀ a b : GoString, (twoNodes LowestFirst).members = {a, b} →
      bytesCompare ((twoNodes LowestFirst).hash (a ++ str "item"))
        ((twoNodes LowestFirst).hash (b ++ str "item")) < 0 →
      priorityList insertionSorter { twoNodes LowestFirst with order := LowestFirst }
        [str "node2", str "node1"] (str "item") = [a, b] ∧
      priorityList insertionSorter { twoNodes LowestFirst with order := HighestFirst }
        [str "node2", str "node1"] (str "item") = [b, a]) :=
  HighestFirst_reverses_LowestFirst insertionSorter insertionSort_contract
    (twoNodes LowestFirst) [str "node2", str "node1"] (by decide) (str "item")

/-! ### The example scenario -/

theorem exampleHasher_distinct :
    DistinctScores exampleHasher (str "item") exampleHasher.members := by
  unfold DistinctScores
  decide!

theorem exampleHasher_descending :
    [str "node3", str "node5", str "node1", str "node2", str "node4"].Pairwise
      (fun a b => bytesCompare (score exampleHasher (str "item") b)
        (score exampleHasher (str "item") a) ≤ 0) := by
  decide!

theorem exampleHasher_ranking (srt : Sorter) (hsrt : SortContract srt)
    (enum : List GoString) (he : Enumerates enum exampleHasher.members) :
    priorityList srt exampleHasher enum (str "item") =
      [str "node3", str "node5", str "node1", str "node2", str "node4"] := by
  have hen : Enumerates [str "node3", str "node5", str "node1", str "node2", str "node4"]
      exampleHasher.members := by decide
  exact priorityList_unique_core srt hsrt exampleHasher (str "item") exampleHasher_distinct
    enum he _ (hen.perm he)
    (fun ho => absurd (show HighestFirst = LowestFirst from ho) (by decide))
    (fun _ => exampleHasher_descending)

/-- C9: the hasher built by `NewHasher(WithMembers("node1", ..., "node5"))` uses SHA-256 and
`HighestFirst`, and for the key `item` it gives, whatever the order in which the map is
enumerated, `Prioritise = [node3, node5, node1, node2, node4]`,
`Place(item, 3) = [node3, node5, node1]` and `Owner = node3`. -/
theorem example_scenario (srt : Sorter) (hsrt : SortContract srt)
    (enum : List GoString) (he : Enumerates enum exampleHasher.members) :
    exampleHasher.hash = sha256 ∧ exampleHasher.order = HighestFirst ∧
    exampleHasher.members =
      {str "node1", str "node2", str "node3", str "node4", str "node5"} ∧
    Prioritise srt exampleHasher enum (str "item") =
      [str "node3", str "node5", str "node1", str "node2", str "node4"] ∧
    Place srt exampleHasher enum (str "item") 3 =
      some [str "node3", str "node5", str "node1"] ∧
    Owner srt exampleHasher enum (str "item") = some (str "node3") := by
  have hpl := exampleHasher_ranking srt hsrt enum he
  refine ⟨rfl, rfl, by decide, hpl, ?_, ?_⟩
  · show place srt exampleHasher enum (str "item") 3 = _
    rw [place_take_core srt hsrt exampleHasher enum (str "item") he 3, hpl]
    have hc : exampleHasher.members.card = 5 := by decide
    rw [hc]
    rfl
  · unfold Owner
    rw [hpl]
    rfl

/-- The example scenario with insertion sort and the map enumerated as
`node4, node1, node5, node2, node3`. -/
theorem example_scenario_witness :
    exampleHasher.hash = sha256 ∧ exampleHasher.order = HighestFirst ∧
    exampleHasher.members =
      {str "node1", str "node2", str "node3", str "node4", str "node5"} ∧
    Prioritise insertionSorter exampleHasher
        [str "node4", str "node1", str "node5", str "node2", str "node3"] (str "item") =
      [str "node3", str "node5", str "node1", str "node2", str "node4"] ∧
    Place insertionSorter exampleHasher
        [str "node4", str "node1", str "node5", str "node2", str "node3"] (str "item") 3 =
      some [str "node3", str "node5", str "node1"] ∧
    Owner insertionSorter exampleHasher
        [str "node4", str "node1", str "node5", str "node2", str "node3"] (str "item") =
      some (str "node3") :=
  example_scenario insertionSorter insertionSort_contract
    [str "node4", str "node1", str "node5", str "node2", str "node3"] (by decide)

/-! ### Listing the members -/

theorem Members_sorted_core (srt : Sorter) (hsrt : SortContract srt) (h : Hasher)
    (enum : List GoString) (he : Enumerates enum h.members) :
    (Members srt h enum).Pairwise (fun a b => bytesCompare a b < 0) ∧
    (Members srt h enum).Nodup ∧
    ∀ m, m ∈ Members srt h enum ↔ m ∈ h.members := by
  have hperm : (Members srt h enum).Perm enum := hsrt.perm stringLess enum
  have hnd : (Members srt h enum).Nodup := hperm.nodup_iff.mpr he.1
  refine ⟨?_, hnd, fun m => by rw [hperm.mem_iff, he.mem_iff]⟩
  have hs : (Members srt h enum).Pairwise (fun a b => stringLess b a = false) :=
    hsrt.sorted stringLess enum stringLess_strictWeakOrder
  refine (hs.and hnd).imp ?_
  intro a b hab
  obtain ⟨hle, hne⟩ := hab
  simp only [stringLess, decide_eq_false_iff_not, not_lt] at hle
  have hsw := bytesCompare_swap a b
  rcases (bytesCompare_le_iff a b).mp (by omega) with hlt | heq
  · exact hlt
  · exact absurd heq hne

/-- C10: in every state reached from `NewHasher` by any sequence of `AddMembers`,
`RemoveMembers` and `SetMembers` calls, `Members` returns a list that is strictly ascending in
byte-wise lexicographic order, hence without duplicates, and whose elements are exactly the
current members. -/
theorem Members_strictly_ascending (srt : Sorter) (hsrt : SortContract srt)
    (opts : List HasherOption) (calls : List Call) (enum : List GoString)
    (he : Enumerates enum (runCalls (NewHasher opts) calls).members) :
    (Members srt (runCalls (NewHasher opts) calls) enum).Pairwise
      (fun a b => bytesCompare a b < 0) ∧
    (Members srt (runCalls (NewHasher opts) calls) enum).Nodup ∧
    ∀ m, m ∈ Members srt (runCalls (NewHasher opts) calls) enum ↔
      m ∈ (runCalls (NewHasher opts) calls).members :=
  Members_sorted_core srt hsrt (runCalls (NewHasher opts) calls) enum he

/-- An instance of the sorted listing: the state after the calls of `TestHasher_Members`. -/
theorem Members_strictly_ascending_witness :
    (Members insertionSorter (runCalls (NewHasher []) exampleCalls)
      [str "node2", str "node1"]).Pairwise (fun a b => bytesCompare a b < 0) ∧
    (Members insertionSorter (runCalls (NewHasher []) exampleCalls)
      [str "node2", str "node1"]).Nodup ∧
    ∀ m, m ∈ Members insertionSorter (runCalls (NewHasher []) exampleCalls)
        [str "node2", str "node1"] ↔
      m ∈ (runCalls (NewHasher []) exampleCalls).members :=
  Members_strictly_ascending insertionSorter insertionSort_contract [] exampleCalls
    [str "node2", str "node1"] (by decide)

/-! ### The mutating calls -/

theorem SetMembers_members (h : Hasher) (ids : List GoString) :
    (SetMembers h ids).members = ids.toFinset := by
  show ids.foldl (fun m member => insert member m) ∅ = ids.toFinset
  rw [foldl_insert_eq, Finset.empty_union]

/-- C11: after `AddMembers(ids)` the member set is exactly the old set together with the
elements of `ids` (empty or with repeats); digest and sort order are untouched; if every element
of `ids` is already a member the state is unchanged.  The call is total: it cannot fail. -/
theorem AddMembers_union (h : Hasher) (ids : List GoString) :
    (AddMembers h ids).members = h.members ∪ ids.toFinset ∧
    (AddMembers h ids).hash = h.hash ∧ (AddMembers h ids).order = h.order ∧
    ((∀ id ∈ ids, id ∈ h.members) → AddMembers h ids = h) := by
  have hm := AddMembers_members h ids
  refine ⟨hm, rfl, rfl, fun hall => ?_⟩
  have hsub : ids.toFinset ⊆ h.members := by
    intro x hx
    exact hall x (List.mem_toFinset.mp hx)
  have hu : (AddMembers h ids).members = h.members := by
    rw [hm, Finset.union_eq_left.mpr hsub]
  show ({ h with members := (AddMembers h ids).members } : Hasher) = h
  rw [hu]

/-- An instance of adding: `node2` (already a member) and `node3` are added to `node1`,
`node2`. -/
theorem AddMembers_union_witness :
    (AddMembers (twoNodes HighestFirst) [str "node2", str "node3"]).members =
      (twoNodes HighestFirst).members ∪ [str "node2", str "node3"].toFinset ∧
    (AddMembers (twoNodes HighestFirst) [str "node2", str "node3"]).hash =
      (twoNodes HighestFirst).hash ∧
    (AddMembers (twoNodes HighestFirst) [str "node2", str "node3"]).order =
      (twoNodes HighestFirst).order ∧
    ((∀ id ∈ [str "node2", str "node3"], id ∈ (twoNodes HighestFirst).members) →
      AddMembers (twoNodes HighestFirst) [str "node2", str "node3"] = twoNodes HighestFirst) :=
  AddMembers_union (twoNodes HighestFirst) [str "node2", str "node3"]

/-- C12: after `RemoveMembers(ids)` the member set is exactly the old set without the elements
of `ids`; digest and sort order are untouched; if no element of `ids` is a member the state is
unchanged.  The call is total: it cannot fail. -/
theorem RemoveMembers_sdiff (h : Hasher) (ids : List GoString) :
    (RemoveMembers h ids).members = h.members \ ids.toFinset ∧
    (RemoveMembers h ids).hash = h.hash ∧ (RemoveMembers h ids).order = h.order ∧
    ((∀ id ∈ ids, id ∉ h.members) → RemoveMembers h ids = h) := by
  have hm := RemoveMembers_members h ids
  refine ⟨hm, rfl, rfl, fun hall => ?_⟩
  have hdis : Disjoint h.members ids.toFinset := by
    rw [Finset.disjoint_right]
    intro x hx
    exact hall x (List.mem_toFinset.mp hx)
  have hu : (RemoveMembers h ids).members = h.members := by
    rw [hm, Finset.sdiff_eq_self_of_disjoint hdis]
  show ({ h with members := (RemoveMembers h ids).members } : Hasher) = h
  rw [hu]

/-- An instance of removing: `node2` (a member) and `node3` (not a member) are removed from
`node1`, `node2`. -/
theorem RemoveMembers_sdiff_witness :
    (RemoveMembers (twoNodes HighestFirst) [str "node2", str "node3"]).members =
      (twoNodes HighestFirst).members \ [str "node2", str "node3"].toFinset ∧
    (RemoveMembers (twoNodes HighestFirst) [str "node2", str "node3"]).hash =
      (twoNodes HighestFirst).hash ∧
    (RemoveMembers (twoNodes HighestFirst) [str "node2", str "node3"]).order =
      (twoNodes HighestFirst).order ∧
    ((∀ id ∈ [str "node2", str "node3"], id ∉ (twoNodes HighestFirst).members) →
      RemoveMembers (twoNodes HighestFirst) [str "node2", str "node3"] =
        twoNodes HighestFirst) :=
  RemoveMembers_sdiff (twoNodes HighestFirst) [str "node2", str "node3"]

/-- C13: after `SetMembers(ids)` the member set is exactly the set of the elements of `ids`,
whatever the members were before: no earlier member outside `ids` remains, and `Members`
returns the elements of `ids` in strictly ascending order, each once. -/
theorem SetMembers_replaces (srt : Sorter) (hsrt : SortContract srt) (h : Hasher)
    (ids : List GoString) (enum : List GoString)
    (he : Enumerates enum (SetMembers h ids).members) :
    (SetMembers h ids).members = ids.toFinset ∧
    (∀ m ∈ h.members, m ∉ ids → m ∉ (SetMembers h ids).members) ∧
    (Members srt (SetMembers h ids) enum).Pairwise (fun a b => bytesCompare a b < 0) ∧
    (∀ m, m ∈ Members srt (SetMembers h ids) enum ↔ m ∈ ids) := by
  have hm := SetMembers_members h ids
  obtain ⟨hsorted, _, hmem⟩ := Members_sorted_core srt hsrt (SetMembers h ids) enum he
  refine ⟨hm, fun m _ hnot => ?_, hsorted, fun m => ?_⟩
  · rw [hm, List.mem_toFinset]
    exact hnot
  · rw [hmem m, hm, List.mem_toFinset]

/-- An instance of replacement: a hasher over `node1`, `node2` is set to `node3`, `node1`,
`node3`. -/
theorem SetMembers_replaces_witness :
    (SetMembers (twoNodes HighestFirst) [str "node3", str "node1", str "node3"]).members =
      [str "node3", str "node1", str "node3"].toFinset ∧
    (∀ m ∈ (twoNodes HighestFirst).members, m ∉ [str "node3", str "node1", str "node3"] →
      m ∉ (SetMembers (twoNodes HighestFirst) [str "node3", str "node1", str "node3"]).members) ∧
    (Members insertionSorter
      (SetMembers (twoNodes HighestFirst) [str "node3", str "node1", str "node3"])
      [str "node3", str "node1"]).Pairwise (fun a b => bytesCompare a b < 0) ∧
    (∀ m, m ∈ Members insertionSorter
      (SetMembers (twoNodes HighestFirst) [str "node3", str "node1", str "node3"])
      [str "node3", str "node1"] ↔ m ∈ [str "node3", str "node1", str "node3"]) :=
  SetMembers_replaces insertionSorter insertionSort_contract (twoNodes HighestFirst)
    [str "node3", str "node1", str "node3"] [str "node3", str "node1"] (by decide)

/-! ### Empty and single-member sets -/

/-- C14: with an empty member set, for every key, every integer `n`, either sort order and
every digest, `priorityList` returns the empty list and `place` returns the empty list; neither
fails. -/
theorem empty_membership (srt : Sorter) (h : Hasher) (hempty : h.members = ∅)
    (enum : List GoString) (key : GoString) (n : Int) :
    priorityList srt h enum key = [] ∧ place srt h enum key n = some [] := by
  have hc : h.members.card = 0 := by rw [hempty]; rfl
  constructor
  · unfold priorityList
    rw [if_pos hc]
  · unfold place
    rw [if_pos (Or.inl hc)]

/-- An instance of the empty set: the hasher `NewHasher()` and `n = 2`. -/
theorem empty_membership_witness :
    priorityList insertionSorter (NewHasher []) [] (str "item") = [] ∧
    place insertionSorter (NewHasher []) [] (str "item") 2 = some [] :=
  empty_membership insertionSorter (NewHasher []) rfl [] (str "item") 2

theorem Enumerates.singleton {enum : List GoString} {m : GoString}
    (he : Enumerates enum {m}) : enum = [m] := by
  have hlen : enum.length = 1 := by rw [he.length_eq, Finset.card_singleton]
  obtain ⟨x, rfl⟩ := List.length_eq_one.mp hlen
  have hx : x ∈ ({m} : Finset GoString) := (he.mem_iff x).mp (List.mem_singleton_self x)
  rw [Finset.mem_singleton.mp hx]

/-- C15: with exactly one member `m`, for every key, either sort order and every digest
(the digest is not consulted), `priorityList` returns `[m]`, `place` returns `[m]` for every
`n ≥ 1` and the empty list for every `n ≤ 0`. -/
theorem single_member (srt : Sorter) (h : Hasher) (m : GoString) (hm : h.members = {m})
    (enum : List GoString) (he : Enumerates enum h.members) (key : GoString) :
    priorityList srt h enum key = [m] ∧
    (∀ n : Int, 1 ≤ n → place srt h enum key n = some [m]) ∧
    (∀ n : Int, n ≤ 0 → place srt h enum key n = some []) := by
  have hc : h.members.card = 1 := by rw [hm, Finset.card_singleton]
  have henum : enum = [m] := by
    rw [hm] at he
    exact he.singleton
  have hpl : priorityList srt h enum key = [m] := by
    unfold priorityList
    rw [if_neg (by omega), if_pos hc, henum]
    rfl
  refine ⟨hpl, fun n hn => ?_, fun n hn => ?_⟩
  · unfold place
    rw [if_neg (by omega), hpl, hc]
    unfold sliceTo
    by_cases h1 : n > ((1 : Nat) : Int)
    · simp only [if_pos h1]
      rfl
    · have hn1 : n = 1 := by omega
      subst hn1
      rfl
  · unfold place
    rw [if_pos (Or.inr hn)]

/-- An instance of the single-member set: the hasher `NewHasher(WithMembers("node1"))`. -/
theorem single_member_witness :
    priorityList insertionSorter (NewHasher [WithMembers [str "node1"]]) [str "node1"]
      (str "item") = [str "node1"] ∧
    (∀ n : Int, 1 ≤ n →
      place insertionSorter (NewHasher [WithMembers [str "node1"]]) [str "node1"]
        (str "item") n = some [str "node1"]) ∧
    (∀ n : Int, n ≤ 0 →
      place insertionSorter (NewHasher [WithMembers [str "node1"]]) [str "node1"]
        (str "item") n = some []) :=
  single_member insertionSorter (NewHasher [WithMembers [str "node1"]]) (str "node1")
    (by decide) [str "node1"] (by decide) (str "item")

/-! ### Byte-wise order and integer order -/

theorem bigEndianValue_lt (a : List UInt8) : bigEndianValue a < 256 ^ a.length := by
  induction a with
  | nil => simp [bigEndianValue]
  | cons x xs ih =>
    have hx : x.toNat < 256 := UInt8.toNat_lt_size x
    have hmul : (x.toNat + 1) * 256 ^ xs.length ≤ 256 * 256 ^ xs.length :=
      Nat.mul_le_mul_right _ (by omega)
    rw [Nat.add_mul, Nat.one_mul] at hmul
    simp only [bigEndianValue, List.length_cons, Nat.pow_succ]
    rw [Nat.mul_comm (256 ^ xs.length) 256]
    omega

theorem bytesCompare_lt_iff_value_lt_core :
    ∀ (a b : List UInt8), a.length = b.length →
      (bytesCompare a b < 0 ↔ bigEndianValue a < bigEndianValue b)
  | [], [], _ => by simp [bytesCompare, bigEndianValue]
  | [], _ :: _, hl => by simp at hl
  | _ :: _, [], hl => by simp at hl
  | x :: xs, y :: ys, hl => by
    have hlen : xs.length = ys.length := by simpa using hl
    have ih := bytesCompare_lt_iff_value_lt_core xs ys hlen
    have hvx := bigEndianValue_lt xs
    have hvy := bigEndianValue_lt ys
    rw [hlen] at hvx
    simp only [bytesCompare, bigEndianValue, u8_lt_iff, hlen]
    generalize 256 ^ ys.length = P at hvx hvy
    by_cases h1 : x.toNat < y.toNat
    · rw [if_pos h1]
      have hmul : (x.toNat + 1) * P ≤ y.toNat * P := Nat.mul_le_mul_right _ (by omega)
      rw [Nat.add_mul, Nat.one_mul] at hmul
      constructor
      · intro _; omega
      · intro _; omega
    · rw [if_neg h1]
      by_cases h2 : y.toNat < x.toNat
      · rw [if_pos h2]
        have hmul : (y.toNat + 1) * P ≤ x.toNat * P := Nat.mul_le_mul_right _ (by omega)
        rw [Nat.add_mul, Nat.one_mul] at hmul
        constructor
        · intro hc; omega
        · intro hc; omega
      · rw [if_neg h2]
        have hxy : x.toNat = y.toNat := by omega
        rw [ih, hxy]
        omega

/-- C16, as the code behaves on outputs of different lengths: `00 02` precedes `01` byte-wise
although it is the larger integer; with a digest that returns `01` for `node1` and `00 02` for
`node2`, `LowestFirst` ranks `node2` (integer 2) before `node1` (integer 1). -/
theorem bytesCompare_not_integer_order :
    bytesCompare [0, 2] [1] < 0 ∧ ¬ bigEndianValue [0, 2] < bigEndianValue [1] ∧
    priorityList insertionSorter (unevenNodes LowestFirst) [str "node1", str "node2"]
      (str "item") = [str "node2", str "node1"] ∧
    bigEndianValue (score (unevenNodes LowestFirst) (str "item") (str "node1")) <
      bigEndianValue (score (unevenNodes LowestFirst) (str "item") (str "node2")) := by
  decide

/-- C16, amended: for two digest outputs of the same length, the first precedes the second in
the byte-wise comparison used by `priorityList` exactly when, read as unsigned big-endian
integers, the first is smaller than the second. -/
theorem bytesCompare_lt_iff_value_lt (a b : List UInt8) (hlen : a.length = b.length) :
    bytesCompare a b < 0 ↔ bigEndianValue a < bigEndianValue b :=
  bytesCompare_lt_iff_value_lt_core a b hlen

/-- An instance with the two four-byte outputs of the tests. -/
theorem bytesCompare_lt_iff_value_lt_witness :
    bytesCompare [0, 0, 0, 1] [0, 0, 0, 2] < 0 ↔
      bigEndianValue [0, 0, 0, 1] < bigEndianValue [0, 0, 0, 2] :=
  bytesCompare_lt_iff_value_lt [0, 0, 0, 1] [0, 0, 0, 2] rfl

/-! ### Tie-free rankings -/

theorem strict_of_distinct (h : Hasher) (key : GoString) (l : List GoString)
    (hd : ∀ a ∈ l, ∀ b ∈ l, h.hash (a ++ key) = h.hash (b ++ key) → a = b)
    (hnd : l.Nodup)
    (hs : l.Pairwise (fun a b => bytesCompare (score h key a) (score h key b) ≤ 0)) :
    l.Pairwise (fun a b => bytesCompare (score h key a) (score h key b) < 0) := by
  refine (hs.and hnd).imp_of_mem ?_
  intro a b ha hb hab
  obtain ⟨hle, hne⟩ := hab
  rcases (bytesCompare_le_iff _ _).mp hle with hlt | heq
  · exact hlt
  · exact absurd (hd a ha b hb heq) hne

theorem priorityList_strict_core (srt : Sorter) (hsrt : SortContract srt) (h : Hasher)
    (key : GoString) (hd : DistinctScores h key h.members)
    (enum : List GoString) (he : Enumerates enum h.members) :
    (h.order = LowestFirst → (priorityList srt h enum key).Pairwise
      (fun a b => bytesCompare (score h key a) (score h key b) < 0)) ∧
    (h.order = HighestFirst → (priorityList srt h enum key).Pairwise
      (fun a b => bytesCompare (score h key b) (score h key a) < 0)) := by
  have hmem := priorityList_mem_iff srt hsrt h enum key he
  have hnd : (priorityList srt h enum key).Nodup :=
    (priorityList_perm srt hsrt h enum key he).nodup_iff.mpr he.1
  constructor
  · intro ho
    exact strict_of_distinct h key _
      (fun a ha b hb => hd a ((hmem a).mp ha) b ((hmem b).mp hb)) hnd
      (priorityList_sorted_lowest srt hsrt h enum key he ho)
  · intro ho
    have hrev := strict_of_distinct h key (priorityList srt h enum key).reverse
      (fun a ha b hb => hd a ((hmem a).mp (List.mem_reverse.mp ha)) b
        ((hmem b).mp (List.mem_reverse.mp hb)))
      (List.nodup_reverse.mpr hnd)
      (List.pairwise_reverse.mpr (priorityList_sorted_highest srt hsrt h enum key he ho))
    exact List.pairwise_reverse.mp hrev

/-- C18: when the scores `digest (member ++ key)` are pairwise distinct over the members,
`priorityList` returns the same list for every order in which the map is enumerated; that list
is strictly ascending in score under `LowestFirst` and strictly descending under
`HighestFirst`, and it is the only listing of the members with that property. -/
theorem priorityList_tie_free_unique (srt : Sorter) (hsrt : SortContract srt) (h : Hasher)
    (key : GoString) (hd : DistinctScores h key h.members)
    (enum : List GoString) (he : Enumerates enum h.members) :
    (∀ enum', Enumerates enum' h.members →
      priorityList srt h enum' key = priorityList srt h enum key) ∧
    (h.order = LowestFirst → (priorityList srt h enum key).Pairwise
      (fun a b => bytesCompare (h.hash (a ++ key)) (h.hash (b ++ key)) < 0)) ∧
    (h.order = HighestFirst → (priorityList srt h enum key).Pairwise
      (fun a b => 0 < bytesCompare (h.hash (a ++ key)) (h.hash (b ++ key)))) ∧
    (∀ l, Enumerates l h.members →
      (h.order = LowestFirst →
        l.Pairwise (fun a b => bytesCompare (h.hash (a ++ key)) (h.hash (b ++ key)) < 0)) →
      (h.order = HighestFirst →
        l.Pairwise (fun a b => 0 < bytesCompare (h.hash (a ++ key)) (h.hash (b ++ key)))) →
      l = priorityList srt h enum key) := by
  obtain ⟨hlo, hhi⟩ := priorityList_strict_core srt hsrt h key hd enum he
  refine ⟨fun enum' he' => priorityList_enum_irrelevant_core srt hsrt h key hd enum' enum he' he,
    hlo, fun ho => (hhi ho).imp ?_, fun l hl hllo hlhi => ?_⟩
  · intro a b hab
    have hs := bytesCompare_swap (score h key b) (score h key a)
    unfold score at hs hab
    omega
  · refine (priorityList_unique_core srt hsrt h key hd enum he l (hl.perm he)
      (fun ho => (hllo ho).imp (fun {a b} hab => le_of_lt hab))
      (fun ho => (hlhi ho).imp ?_)).symm
    intro a b hab
    have hs := bytesCompare_swap (score h key b) (score h key a)
    unfold score at hs ⊢
    omega

/-- An instance of the unique tie-free ranking: `node1`, `node2` with the identity digest. -/
theorem priorityList_tie_free_unique_witness :
    (∀ enum', Enumerates enum' (twoNodes LowestFirst).members →
      priorityList insertionSorter (twoNodes LowestFirst) enum' (str "item") =
        priorityList insertionSorter (twoNodes LowestFirst) [str "node2", str "node1"]
          (str "item")) ∧
    ((twoNodes LowestFirst).order = LowestFirst →
      (priorityList insertionSorter (twoNodes LowestFirst) [str "node2", str "node1"]
        (str "item")).Pairwise
        (fun a b => bytesCompare ((twoNodes LowestFirst).hash (a ++ str "item"))
          ((twoNodes LowestFirst).hash (b ++ str "item")) < 0)) ∧
    ((twoNodes LowestFirst).order = HighestFirst →
      (priorityList insertionSorter (twoNodes LowestFirst) [str "node2", str "node1"]
        (str "item")).Pairwise
        (fun a b => 0 < bytesCompare ((twoNodes LowestFirst).hash (a ++ str "item"))
          ((twoNodes LowestFirst).hash (b ++ str "item")))) ∧
    (∀ l, Enumerates l (twoNodes LowestFirst).members →
      ((twoNodes LowestFirst).order = LowestFirst →
        l.Pairwise (fun a b => bytesCompare ((twoNodes LowestFirst).hash (a ++ str "item"))
          ((twoNodes LowestFirst).hash (b ++ str "item")) < 0)) →
      ((twoNodes LowestFirst).order = HighestFirst →
        l.Pairwise (fun a b => 0 < bytesCompare ((twoNodes LowestFirst).hash (a ++ str "item"))
          ((twoNodes LowestFirst).hash (b ++ str "item")))) →
      l = priorityList insertionSorter (twoNodes LowestFirst) [str "node2", str "node1"]
        (str "item")) :=
  priorityList_tie_free_unique insertionSorter insertionSort_contract (twoNodes LowestFirst)
    (str "item") (fun _ _ _ _ hab => List.append_cancel_right hab)
    [str "node2", str "node1"] (by decide)

/-! ### Stability under membership churn -/

/-- C19: when the scores for the key are pairwise distinct on the member set `M`, the ranking
over every subset `M'` of `M` is the ranking over `M` with the members outside `M'` deleted:
the surviving members keep their relative order. -/
theorem priorityList_stable_under_churn (srt : Sorter) (hsrt : SortContract srt) (h : Hasher)
    (key : GoString) (hd : DistinctScores h key h.members)
    (enum : List GoString) (he : Enumerates enum h.members)
    (M' : Finset GoString) (enum' : List GoString) (hsub : M' ⊆ h.members)
    (he' : Enumerates enum' M') :
    priorityList srt { h with members := M' } enum' key =
      (priorityList srt h enum key).filter (fun m => decide (m ∈ M')) := by
  have hmem := priorityList_mem_iff srt hsrt h enum key he
  have hnd : (priorityList srt h enum key).Nodup :=
    (priorityList_perm srt hsrt h enum key he).nodup_iff.mpr he.1
  have hfil : Enumerates ((priorityList srt h enum key).filter (fun m => decide (m ∈ M')))
      M' := by
    refine ⟨hnd.filter _, ?_⟩
    ext x
    rw [List.mem_toFinset, List.mem_filter, hmem x, decide_eq_true_iff]
    exact ⟨fun hx => hx.2, fun hx => ⟨hsub hx, hx⟩⟩
  have hd' : DistinctScores { h with members := M' } key M' :=
    fun a ha b hb hab => hd a (hsub ha) b (hsub hb) hab
  exact priorityList_unique_core srt hsrt { h with members := M' } key hd' enum' he' _
    (hfil.perm he')
    (fun ho => (priorityList_sorted_lowest srt hsrt h enum key he ho).filter _)
    (fun ho => (priorityList_sorted_highest srt hsrt h enum key he ho).filter _)

/-- An instance of stability with two survivors: over `node1`, `node2`, `node3` with the
identity digest and `HighestFirst` the ranking is `node3, node2, node1`; over the subset
`node1`, `node3`, enumerated as `node1, node3`, it is `node3, node1`. -/
theorem priorityList_stable_under_churn_witness :
    priorityList insertionSorter
        { threeNodes HighestFirst with members := {str "node1", str "node3"} }
        [str "node1", str "node3"] (str "item") =
      (priorityList insertionSorter (threeNodes HighestFirst)
        [str "node2", str "node3", str "node1"] (str "item")).filter
        (fun m => decide (m ∈ ({str "node1", str "node3"} : Finset GoString))) ∧
    priorityList insertionSorter (threeNodes HighestFirst)
        [str "node2", str "node3", str "node1"] (str "item") =
      [str "node3", str "node2", str "node1"] ∧
    priorityList insertionSorter
        { threeNodes HighestFirst with members := {str "node1", str "node3"} }
        [str "node1", str "node3"] (str "item") = [str "node3", str "node1"] :=
  ⟨priorityList_stable_under_churn insertionSorter insertionSort_contract
    (threeNodes HighestFirst) (str "item") (fun _ _ _ _ hab => List.append_cancel_right hab)
    [str "node2", str "node3", str "node1"] (by decide) {str "node1", str "node3"}
    [str "node1", str "node3"] (by decide) (by decide), by decide, by decide⟩

/-! ### Placements name distinct members -/

/-- C20: for every member set, key, integer `n`, sort order and digest, `place` returns
exactly `min (max n 0) |M|` strings, pairwise distinct, each of them a member; so for
`1 ≤ n ≤ |M|` it names `n` different members. -/
theorem place_distinct_members (srt : Sorter) (hsrt : SortContract srt) (h : Hasher)
    (enum : List GoString) (he : Enumerates enum h.members) (key : GoString) (n : Int) :
    ∃ l, place srt h enum key n = some l ∧
      (l.length : Int) = min (max n 0) (h.members.card : Int) ∧
      l.Nodup ∧ (∀ m ∈ l, m ∈ h.members) ∧
      (1 ≤ n → n ≤ (h.members.card : Int) → (l.length : Int) = n) := by
  have hlen := priorityList_length srt hsrt h enum key he
  have hnd : (priorityList srt h enum key).Nodup :=
    (priorityList_perm srt hsrt h enum key he).nodup_iff.mpr he.1
  have hl : (((priorityList srt h enum key).take
      (min (max n 0) (h.members.card : Int)).toNat).length : Int) =
      min (max n 0) (h.members.card : Int) := by
    rw [List.length_take, hlen]
    omega
  refine ⟨_, place_take_core srt hsrt h enum key he n, hl,
    hnd.sublist (List.take_sublist _ _), fun m hm => ?_, fun h1 h2 => ?_⟩
  · exact (priorityList_mem_iff srt hsrt h enum key he m).mp (List.mem_of_mem_take hm)
  · rw [hl]
    omega

/-- An instance of a placement: `n = 1` over the two members `node1`, `node2`. -/
theorem place_distinct_members_witness :
    ∃ l, place insertionSorter (twoNodes HighestFirst) [str "node1", str "node2"]
        (str "item") 1 = some l ∧
      (l.length : Int) = min (max 1 0) ((twoNodes HighestFirst).members.card : Int) ∧
      l.Nodup ∧ (∀ m ∈ l, m ∈ (twoNodes HighestFirst).members) ∧
      ((1 : Int) ≤ 1 → (1 : Int) ≤ ((twoNodes HighestFirst).members.card : Int) →
        (l.length : Int) = 1) :=
  place_distinct_members insertionSorter insertionSort_contract (twoNodes HighestFirst)
    [str "node1", str "node2"] (by decide) (str "item") 1

end Rendezvous
